import Mathlib

/-!
# Verification of `scoped-trace` (src/src/lib.rs)

Shallow embedding of the scoped-backtrace crate. Frame identities
(instruction-pointer / symbol addresses, `*const c_void` in the source) are
modelled as `Nat`. The thread-local `Context` holds the chain of active
`Frame`s (the intrusive `parent`-linked list is modelled as a Lean list whose
head is the top frame's `inner_addr`) and the optional capture accumulator
(`Cell<Option<Trace>>`). The external stack walker `backtrace::trace` is
modelled by passing the native stack — the list of `symbol_address`es the
walker would report, leaf-to-root — as an explicit input to `Trace.leaf`.
-/

/-- Model of `Trace` from lib.rs: `backtraces: Vec<Backtrace>`; each backtrace is the
list of captured frame addresses, leaf-to-root. -/
structure Trace where
  backtraces : List (List Nat)
deriving DecidableEq, Repr

/-- Model of `Context` from lib.rs: `active_frame: Cell<Option<NonNull<Frame>>>` is
modelled as the list of `inner_addr`s along the `parent` chain (head = top,
`[]` = `None`); `trace: Cell<Option<Trace>>` is the active accumulator. -/
structure Context where
  active_frame : List Nat
  trace : Option Trace
deriving DecidableEq, Repr

/-- The callback loop of `backtrace::trace` inside `Trace::leaf`
(lib.rs:191-207), with the I/O stripped. `la` is `Trace::leaf`'s own address
(`Self::leaf as *const _`), `b` is the active frame's `inner_addr`, the list
is the native stack (each frame's `symbol_address`), and the `Bool` is the
mutable `above_leaf` flag. Per frame: `below_root = !ptr::eq(addr, b)`; push
the frame iff `above_leaf && below_root`; then set `above_leaf` upon meeting
`Trace::leaf`'s own frame; continue walking iff `below_root`. -/
def leafWalk (la b : Nat) : List Nat → Bool → List Nat
  | [], _ => []
  | f :: rest, above_leaf =>
    let below_root := f != b
    let pushed := if above_leaf && below_root then [f] else []
    let above_leaf' := if f == la then true else above_leaf
    if below_root then pushed ++ leafWalk la b rest above_leaf' else pushed

/-- The backtrace recorded by one `leaf()` call given the active-frame chain:
`vec![]` when no frame is active (lib.rs:185,188), otherwise the bounded walk
against the top frame's `inner_addr`. -/
def captureOf (la : Nat) (frames : List Nat) (stack : List Nat) : List Nat :=
  match frames with
  | [] => []
  | b :: _ => leafWalk la b stack false

/-- Model of `Trace::leaf` (lib.rs:181-214): take the accumulator; if none, do
nothing; otherwise record one backtrace (empty when no frame is active) and
push it onto `collector.backtraces`, putting the accumulator back. -/
def Trace.leaf (la : Nat) (stack : List Nat) (ctx : Context) : Context :=
  match ctx.trace with
  | none => ctx
  | some collector =>
    let frames := captureOf la ctx.active_frame stack
    { ctx with trace := some { backtraces := collector.backtraces ++ [frames] } }

mutual
/-- A closure body, as the sequence of crate-relevant events it performs:
calling `Trace::leaf` (with the native stack the walker would see there),
panicking, or entering a nested `Trace::root` / `Trace::capture` whose
boundary address is the given `addr` (`Self::root::<F, R> as *const c_void`,
lib.rs:152). -/
inductive Ev where
  | leaf (stack : List Nat)
  | panic
  | root (addr : Nat) (body : Evs)
  | capture (addr : Nat) (body : Evs)

/-- A list of events (mutual with `Ev`). -/
inductive Evs where
  | nil
  | cons (e : Ev) (rest : Evs)
end

mutual
/-- Run one event. Returns the final `Context` and whether the event
unwound (`true` = a panic is propagating).

* `.leaf`: `Trace::leaf` (lib.rs:181-214); never unwinds.
* `.panic`: begins unwinding.
* `.root a body` mirrors `Trace::root` (lib.rs:146-169): save the current
  top as `frame.parent`, set the new frame as top, run `f`, and — because
  `_restore` is a `defer` guard whose `Drop` runs on both normal return and
  unwind (lib.rs:161-165, 223-238) — restore `active_frame` to
  `frame.parent` on every exit path.
* `.capture a body` mirrors `Trace::capture` (lib.rs:123-143): replace the
  accumulator with a fresh empty one, delegate to `root`, then swap the
  previous accumulator back. The swap-back (lib.rs:137-140) is a plain
  statement after `Trace::root(f)` with no `defer` guard, so it does not
  execute when `f` unwinds. -/
def runEv (la : Nat) : Ev → Context → Context × Bool
  | .leaf stack, ctx => (Trace.leaf la stack ctx, false)
  | .panic, ctx => (ctx, true)
  | .root a body, ctx =>
    let parent := ctx.active_frame
    let res := runEvs la body { ctx with active_frame := a :: parent }
    ({ res.1 with active_frame := parent }, res.2)
  | .capture a body, ctx =>
    let previous := ctx.trace
    let started : Context := { ctx with trace := some { backtraces := [] } }
    let parent := started.active_frame
    let res := runEvs la body { started with active_frame := a :: parent }
    let afterRoot := { res.1 with active_frame := parent }
    if res.2 then (afterRoot, true)
    else ({ afterRoot with trace := previous }, false)

/-- Run a sequence of events; a panic aborts the remaining events of the
sequence and propagates. -/
def runEvs (la : Nat) : Evs → Context → Context × Bool
  | .nil, ctx => (ctx, false)
  | .cons e rest, ctx =>
    let r := runEv la e ctx
    if r.2 then r else runEvs la rest r.1
end

/-- Model of `Trace::capture` (lib.rs:123-143) as called at top level, including its
return value: `(final context, unwound?, returned Trace)`. On normal return
the returned `Trace` is the collector swapped out at lib.rs:137-140; on
unwind no value is returned (`none`). -/
def Trace.capture (la a : Nat) (body : Evs) (ctx : Context) :
    Context × Bool × Option Trace :=
  let previous := ctx.trace
  let started : Context := { ctx with trace := some { backtraces := [] } }
  let res := runEv la (.root a body) started
  if res.2 then (res.1, true, none)
  else ({ res.1 with trace := previous }, false, res.1.trace)

/-- Build an event sequence of plain `leaf()` calls from their stacks. -/
def ofStacks : List (List Nat) → Evs
  | [] => .nil
  | s :: ss => .cons (.leaf s) (ofStacks ss)

/-!
## The walker callback with its I/O transcript

`Trace::leaf`'s callback (lib.rs:191-207) also performs I/O on every frame it
visits: `println!("boom!")` to standard output at the top of each invocation,
and `dbg!` to standard error — `dbg!(above_leaf)`, then (only when
`above_leaf` is true, by `&&` short-circuit) `dbg!(below_root)`, and finally
`dbg!(below_root)` as the callback's return value. `leafWalkTr` is the same
loop as `leafWalk` extended with the transcript: captured frames, the stdout
lines, and the values passed to `dbg!` in emission order.
-/

/-- The walk `leafWalk` extended with its I/O transcript:
`(captured frames, stdout lines, values printed by dbg to stderr)`. -/
def leafWalkTr (la b : Nat) : List Nat → Bool → List Nat × List String × List Bool
  | [], _ => ([], [], [])
  | f :: rest, above_leaf =>
    let below_root := f != b
    let dbgs := (above_leaf :: (if above_leaf then [below_root] else [])) ++ [below_root]
    let pushed := if above_leaf && below_root then [f] else []
    let above_leaf' := if f == la then true else above_leaf
    if below_root then
      let r := leafWalkTr la b rest above_leaf'
      (pushed ++ r.1, "boom!" :: r.2.1, dbgs ++ r.2.2)
    else (pushed, ["boom!"], dbgs)

/-- The frames the walker's callback is invoked on: every frame up to and
including the first one whose address equals the boundary `b` (the callback
returns `false` there, stopping `backtrace::trace`), or the whole stack if
the boundary never occurs. -/
def visitedFrames (b : Nat) : List Nat → List Nat
  | [] => []
  | f :: rest => f :: (if f != b then visitedFrames b rest else [])

/-!
## The tree builder

Modelled from the spec: `src/tree.rs` (declared by `mod tree;` in lib.rs and
used by `impl fmt::Display for Trace` via `Tree::from_trace`, lib.rs:217-221)
is not present under src/, so the merge algorithm is modelled from spec §4.3:
for each RawCapture, reverse it to root-to-leaf order, then walk the forest
from the top — descend into an existing child whose address equals the next
address, otherwise create a new child appended after existing siblings.
-/

/-- Modelled from the spec: a merged call-site node — an address plus its
ordered children (insertion order = first-seen order across captures). -/
inductive TreeNode where
  | mk (addr : Nat) (children : List TreeNode)

/-- The address of a tree node. -/
def TreeNode.addr : TreeNode → Nat
  | .mk a _ => a

/-- The children of a tree node. -/
def TreeNode.children : TreeNode → List TreeNode
  | .mk _ c => c

/-- Find the first node of a forest with the given address, returning the
siblings before it, the node, and the siblings after it. -/
def splitAtAddr (a : Nat) : List TreeNode → Option (List TreeNode × TreeNode × List TreeNode)
  | [] => none
  | t :: ts =>
    if t.addr == a then some ([], t, ts)
    else
      match splitAtAddr a ts with
      | some (before, n, after) => some (t :: before, n, after)
      | none => none

/-- Modelled from the spec (§4.3): insert one root-to-leaf path into a
forest. At each step, descend into the existing child with a matching
address if there is one; otherwise create a new child appended after the
existing siblings. -/
def insertPath : List Nat → List TreeNode → List TreeNode
  | [], forest => forest
  | a :: rest, forest =>
    match splitAtAddr a forest with
    | some (before, n, after) =>
      before ++ (TreeNode.mk n.addr (insertPath rest n.children) :: after)
    | none => forest ++ [TreeNode.mk a (insertPath rest [])]

/-- The linear chain of nodes a single path produces in an empty forest. -/
def mkChain : List Nat → List TreeNode
  | [] => []
  | a :: rest => [TreeNode.mk a (mkChain rest)]

/-- A linear chain of single nodes ending in the given forest of children. -/
def chainWith : List Nat → List TreeNode → List TreeNode
  | [], leaves => leaves
  | a :: rest, leaves => [TreeNode.mk a (chainWith rest leaves)]

/-- Modelled from the spec: `Tree::from_trace` merges the captures of a
`Trace` into a forest, inserting each capture — reversed to root-to-leaf
order — in CaptureSet order. -/
def Tree.from_trace (tr : Trace) : List TreeNode :=
  tr.backtraces.foldl (fun forest c => insertPath c.reverse forest) []

/-!
## Lemmas about the bounded walk
-/

/-- Once `above_leaf` is set, the walk collects exactly the frames up to,
and excluding, the first boundary frame. -/
theorem leafWalk_true (la b : Nat) (post : List Nat) :
    leafWalk la b post true = post.takeWhile (fun f => f != b) := by
  induction post with
  | nil => rfl
  | cons f rest ih =>
    by_cases h : f = b
    · subst h
      simp [leafWalk, List.takeWhile]
    · have hbne : (f != b) = true := by simp [h]
      simp [leafWalk, List.takeWhile, hbne, ih]

/-- Frames walked before `Trace::leaf`'s own frame contribute nothing, as
long as neither the leaf address nor the boundary occurs among them. -/
theorem leafWalk_skip (la b : Nat) (pre xs : List Nat)
    (hla : la ∉ pre) (hb : b ∉ pre) :
    leafWalk la b (pre ++ xs) false = leafWalk la b xs false := by
  induction pre with
  | nil => rfl
  | cons f rest ih =>
    simp only [List.mem_cons, not_or] at hla hb
    have hfla : ¬(f = la) := fun h => hla.1 h.symm
    have hfb : ¬(f = b) := fun h => hb.1 h.symm
    simpa [leafWalk, hfla, hfb] using ih hla.2 hb.2

/-- If the boundary occurs in a list, `dropWhile (· != b)` exposes it as the
head of the remainder. -/
theorem dropWhile_ne_of_mem {b : Nat} {l : List Nat} (h : b ∈ l) :
    ∃ tail, l.dropWhile (fun f => f != b) = b :: tail := by
  induction l with
  | nil => cases h
  | cons f rest ih =>
    by_cases hf : f = b
    · subst hf
      exact ⟨rest, by simp [List.dropWhile]⟩
    · have hmem : b ∈ rest := (List.mem_cons.mp h).resolve_left fun hb => hf hb.symm
      obtain ⟨tail, htail⟩ := ih hmem
      have hbne : (f != b) = true := by simp [hf]
      exact ⟨tail, by simp [List.dropWhile, hbne, htail]⟩

/-- C1: a `leaf()` walk over a native stack `pre ++ la :: post` — machinery
frames `pre`, then `Trace::leaf`'s own frame at address `la`, then the user
frames `post` — collects exactly `post.takeWhile (· != b)`: no machinery
frame appears, the collected frames are in leaf-to-root (stack) order, every
collected address differs from the boundary `b`, and the result is an
initial segment of `post`, so nothing beyond the boundary is collected even
when the native stack continues further. -/
theorem leaf_capture_bounded (la b : Nat) (pre post : List Nat)
    (hla : la ∉ pre) (hb : b ∉ pre) (hne : b ≠ la) :
    leafWalk la b (pre ++ la :: post) false = post.takeWhile (fun f => f != b)
    ∧ (∀ f ∈ leafWalk la b (pre ++ la :: post) false, f ≠ b)
    ∧ ∃ rest, post = leafWalk la b (pre ++ la :: post) false ++ rest := by
  have hlab : ¬(la = b) := fun h => hne h.symm
  have h1 : leafWalk la b (pre ++ la :: post) false
      = post.takeWhile (fun f => f != b) := by
    rw [leafWalk_skip la b pre _ hla hb]
    simp [leafWalk, hlab, leafWalk_true]
  refine ⟨h1, ?_, ?_⟩
  · intro f hf
    rw [h1] at hf
    have := List.mem_takeWhile_imp hf
    simpa using this
  · exact ⟨post.dropWhile (fun f => f != b), by rw [h1, List.takeWhile_append_dropWhile]⟩

/-- Witness for C1 at a concrete stack. -/
theorem leaf_capture_bounded_witness :
    (0 : Nat) ∉ [7, 8] ∧ (9 : Nat) ∉ [7, 8] ∧ (9 : Nat) ≠ 0
    ∧ (leafWalk 0 9 ([7, 8] ++ 0 :: [1, 2, 9, 5]) false
        = List.takeWhile (fun f => f != 9) [1, 2, 9, 5]
      ∧ (∀ f ∈ leafWalk 0 9 ([7, 8] ++ 0 :: [1, 2, 9, 5]) false, f ≠ 9)
      ∧ ∃ rest, [1, 2, 9, 5] = leafWalk 0 9 ([7, 8] ++ 0 :: [1, 2, 9, 5]) false ++ rest) :=
  ⟨by decide, by decide, by decide,
    leaf_capture_bounded 0 9 [7, 8] [1, 2, 9, 5] (by decide) (by decide) (by decide)⟩

/-- C5 counterexample: with the active frame's boundary address 9 and native
stack `[0, 1, 2, 9, 5]` (0 = `Trace::leaf`'s own frame), `leaf()` records the
non-empty capture `[1, 2]`. The walker did reach the boundary (9 is in the
stack), yet the capture's last address is 2, not the boundary address 9: the
boundary frame itself is excluded from every capture. -/
theorem leaf_last_boundary_counterexample :
    Trace.leaf 0 [0, 1, 2, 9, 5] ⟨[9], some ⟨[]⟩⟩ = ⟨[9], some ⟨[[1, 2]]⟩⟩
    ∧ (9 : Nat) ∈ [0, 1, 2, 9, 5]
    ∧ ([1, 2] : List Nat) ≠ []
    ∧ ([1, 2] : List Nat).getLast? ≠ some 9 := by
  decide

/-- C5 amended: when the walker reaches the boundary, a capture consists of
exactly the frames strictly between the machinery and the first boundary
frame — every captured address differs from `boundary_address`, and the
remaining stack resumes at the boundary frame, which is excluded. -/
theorem leaf_stops_before_boundary (la b : Nat) (pre post : List Nat)
    (hla : la ∉ pre) (hb : b ∉ pre) (hne : b ≠ la) (hmem : b ∈ post) :
    (∀ f ∈ leafWalk la b (pre ++ la :: post) false, f ≠ b)
    ∧ ∃ rest, post = leafWalk la b (pre ++ la :: post) false ++ b :: rest := by
  obtain ⟨h1, h2, -⟩ := leaf_capture_bounded la b pre post hla hb hne
  refine ⟨h2, ?_⟩
  obtain ⟨tail, htail⟩ := dropWhile_ne_of_mem hmem
  exact ⟨tail, by rw [h1, ← htail, List.takeWhile_append_dropWhile]⟩

/-- C2: `Trace::root` pushes a new frame whose parent chain is the thread's
previous top (the body runs with `active_frame = a :: ctx.active_frame`),
and on every exit path — the equations hold whether the body's run unwound
or not — restores `active_frame` to its pre-call value, while passing the
body's accumulator effects and unwind status through unchanged. -/
theorem root_pushes_and_restores (la a : Nat) (body : Evs) (ctx : Context) :
    (runEv la (.root a body) ctx).1.active_frame = ctx.active_frame
    ∧ (runEv la (.root a body) ctx).1.trace
      = (runEvs la body { ctx with active_frame := a :: ctx.active_frame }).1.trace
    ∧ (runEv la (.root a body) ctx).2
      = (runEvs la body { ctx with active_frame := a :: ctx.active_frame }).2 :=
  ⟨rfl, rfl, rfl⟩

/-- C3 counterexample: run `Trace::capture` (boundary address 100) on a
pristine context whose accumulator is `none`, with a body that immediately
panics. The closure unwinds (`.2 = true`) and the `ActivationFrame` chain is
restored, but the accumulator is left at `some ⟨[]⟩` — the inner collector —
instead of being restored to the pre-call `none`: `capture`'s swap-back
(lib.rs:137-140) is not protected by a `defer` guard, so it is skipped
during unwinding. -/
theorem capture_unwind_counterexample :
    (runEv 0 (.capture 100 (.cons .panic .nil)) ⟨[], none⟩).2 = true
    ∧ (runEv 0 (.capture 100 (.cons .panic .nil)) ⟨[], none⟩).1.active_frame = []
    ∧ (runEv 0 (.capture 100 (.cons .panic .nil)) ⟨[], none⟩).1.trace = some ⟨[]⟩
    ∧ (some (Trace.mk []) : Option Trace) ≠ none := by
  refine ⟨rfl, rfl, rfl, by decide⟩

/-- C3 amended: if the closure passed to `root` via `capture` unwinds, only
the thread's `ActivationFrame` state is restored to its pre-call value; the
accumulator is restored only when the closure returns normally. -/
theorem capture_restores_frame_always_trace_on_return (la a : Nat) (body : Evs)
    (ctx : Context) :
    (runEv la (.capture a body) ctx).1.active_frame = ctx.active_frame
    ∧ ((runEv la (.capture a body) ctx).2 = false →
        (runEv la (.capture a body) ctx).1.trace = ctx.trace) := by
  show ((if (runEvs la body _).2 then _ else _ : Context × Bool).1.active_frame = _) ∧ _
  cases hp : (runEvs la body
      { active_frame := a :: ctx.active_frame, trace := some ⟨[]⟩ }).2 with
  | false => simp [runEv, hp]
  | true => simp [runEv, hp]

/-- Witness for the amended C3 at a concrete input. -/
theorem capture_restores_witness :
    (runEv 0 (.capture 5 .nil) ⟨[], none⟩).1.active_frame = []
    ∧ (runEv 0 (.capture 5 .nil) ⟨[], none⟩).1.trace = none :=
  ⟨(capture_restores_frame_always_trace_on_return 0 5 .nil ⟨[], none⟩).1,
    (capture_restores_frame_always_trace_on_return 0 5 .nil ⟨[], none⟩).2 rfl⟩

/-- Running a sequence of plain `leaf()` calls while an accumulator is
active appends exactly one capture per call, in call order, and changes
nothing else. -/
theorem runEvs_ofStacks (la : Nat) (sts : List (List Nat)) (ctx : Context)
    (t : Trace) (h : ctx.trace = some t) :
    runEvs la (ofStacks sts) ctx
      = ({ ctx with
            trace := some ⟨t.backtraces ++ sts.map (captureOf la ctx.active_frame)⟩ },
          false) := by
  induction sts generalizing ctx t with
  | nil =>
    cases ctx with
    | mk af tr =>
      cases t with
      | mk bts =>
        simp only [Context.trace] at h
        simp [ofStacks, runEvs, h]
  | cons s ss ih =>
    have hleaf : Trace.leaf la s ctx
        = { ctx with
            trace := some ⟨t.backtraces ++ [captureOf la ctx.active_frame s]⟩ } := by
      simp [Trace.leaf, h]
    have hnext := ih { ctx with
        trace := some ⟨t.backtraces ++ [captureOf la ctx.active_frame s]⟩ }
      ⟨t.backtraces ++ [captureOf la ctx.active_frame s]⟩ rfl
    simp only [ofStacks, runEvs, runEv, hleaf, hnext]
    simp [List.append_assoc]

/-- C6: each `leaf()` call made while an accumulator is active appends
exactly one RawCapture, and the resulting CaptureSet lists the captures in
the real-time order of the `leaf()` invocations (one entry per stack, in
sequence order). -/
theorem leaf_appends_in_order (la : Nat) (sts : List (List Nat)) (ctx : Context)
    (t : Trace) (h : ctx.trace = some t) :
    runEvs la (ofStacks sts) ctx
      = ({ ctx with
            trace := some ⟨t.backtraces ++ sts.map (captureOf la ctx.active_frame)⟩ },
          false) :=
  runEvs_ofStacks la sts ctx t h

/-- Witness for C6: two `leaf()` calls under boundary 9 append the captures
`[1]` then `[2]`, in call order. -/
theorem leaf_appends_in_order_witness :
    (⟨[9], some ⟨[]⟩⟩ : Context).trace = some ⟨[]⟩
    ∧ runEvs 0 (ofStacks [[0, 1, 9], [0, 2, 9]]) ⟨[9], some ⟨[]⟩⟩
      = ({ (⟨[9], some ⟨[]⟩⟩ : Context) with
            trace := some ⟨Trace.backtraces ⟨[]⟩
              ++ [[0, 1, 9], [0, 2, 9]].map (captureOf 0 (Context.active_frame ⟨[9], some ⟨[]⟩⟩)) ⟩ },
          false) :=
  ⟨rfl, leaf_appends_in_order 0 [[0, 1, 9], [0, 2, 9]] ⟨[9], some ⟨[]⟩⟩ ⟨[]⟩ rfl⟩

/-- C7: an inner `capture` run while an outer accumulator holds `t` returns
normally with exactly the captures of its own `leaf()` calls (each bounded
by the inner boundary `a`), and leaves the whole outer context — the outer
accumulator included — exactly as it was. -/
theorem capture_nested_independent (la a : Nat) (sts : List (List Nat))
    (ctx : Context) (t : Trace) (h : ctx.trace = some t) :
    Trace.capture la a (ofStacks sts) ctx
      = (ctx, false, some ⟨sts.map (fun s => leafWalk la a s false)⟩) := by
  have hrun := runEvs_ofStacks la sts
    ⟨a :: ctx.active_frame, some ⟨[]⟩⟩ ⟨[]⟩ rfl
  cases ctx with
  | mk af tr =>
    cases tr with
    | none => simp only [Context.trace] at h; cases h
    | some t0 =>
      simp only [Context.trace, Option.some.injEq] at h
      subst h
      simp only [Trace.capture, runEv, Context.active_frame, Context.trace] at hrun ⊢
      rw [hrun]
      simp [captureOf]

/-- Witness for C7 at a concrete nested capture. -/
theorem capture_nested_independent_witness :
    (⟨[9], some ⟨[[4]]⟩⟩ : Context).trace = some ⟨[[4]]⟩
    ∧ Trace.capture 0 5 (ofStacks [[0, 1, 5, 9]]) ⟨[9], some ⟨[[4]]⟩⟩
      = (⟨[9], some ⟨[[4]]⟩⟩, false, some ⟨[[0, 1, 5, 9]].map (fun s => leafWalk 0 5 s false)⟩) :=
  ⟨rfl, capture_nested_independent 0 5 [[0, 1, 5, 9]] ⟨[9], some ⟨[[4]]⟩⟩ ⟨[[4]]⟩ rfl⟩

/-- C8: `leaf()` with an active accumulator but no active `ActivationFrame`
appends exactly one empty RawCapture to the accumulator. -/
theorem leaf_without_root_appends_empty (la : Nat) (stack : List Nat)
    (ctx : Context) (t : Trace) (hf : ctx.active_frame = [])
    (ht : ctx.trace = some t) :
    Trace.leaf la stack ctx = { ctx with trace := some ⟨t.backtraces ++ [[]]⟩ } := by
  simp [Trace.leaf, ht, captureOf, hf]

/-- Witness for C8 at a concrete input. -/
theorem leaf_without_root_appends_empty_witness :
    (⟨[], some ⟨[[3]]⟩⟩ : Context).active_frame = []
    ∧ (⟨[], some ⟨[[3]]⟩⟩ : Context).trace = some ⟨[[3]]⟩
    ∧ Trace.leaf 0 [0, 1, 2] ⟨[], some ⟨[[3]]⟩⟩
      = { (⟨[], some ⟨[[3]]⟩⟩ : Context) with
          trace := some ⟨Trace.backtraces ⟨[[3]]⟩ ++ [[]]⟩ } :=
  ⟨rfl, rfl,
    leaf_without_root_appends_empty 0 [0, 1, 2] ⟨[], some ⟨[[3]]⟩⟩ ⟨[[3]]⟩ rfl rfl⟩

/-- C9: `leaf()` with no active accumulator returns immediately and leaves
the whole thread context — active frame chain and accumulator — unchanged;
the result does not depend on the native stack, so no walk is performed. -/
theorem leaf_no_accumulator_noop (la : Nat) (stack : List Nat) (ctx : Context)
    (h : ctx.trace = none) : Trace.leaf la stack ctx = ctx := by
  simp [Trace.leaf, h]

/-- Witness for C9 at a concrete input. -/
theorem leaf_no_accumulator_noop_witness :
    (⟨[9], none⟩ : Context).trace = none
    ∧ Trace.leaf 0 [0, 1, 9] ⟨[9], none⟩ = ⟨[9], none⟩ :=
  ⟨rfl, leaf_no_accumulator_noop 0 [0, 1, 9] ⟨[9], none⟩ rfl⟩

/-- The transcript walk captures the same frames as the plain walk. -/
theorem leafWalkTr_fst (la b : Nat) (stack : List Nat) (al : Bool) :
    (leafWalkTr la b stack al).1 = leafWalk la b stack al := by
  induction stack generalizing al with
  | nil => rfl
  | cons f rest ih =>
    by_cases h : (f != b) = true <;>
      simp [leafWalkTr, leafWalk, h, ih]

/-- The callback prints `boom!` to stdout exactly once per visited frame. -/
theorem leafWalkTr_stdout (la b : Nat) (stack : List Nat) (al : Bool) :
    (leafWalkTr la b stack al).2.1 = (visitedFrames b stack).map (fun _ => "boom!") := by
  induction stack generalizing al with
  | nil => rfl
  | cons f rest ih =>
    by_cases h : (f != b) = true <;>
      simp [leafWalkTr, visitedFrames, h, ih]

/-- The callback passes at least one value to `dbg!` per visited frame. -/
theorem leafWalkTr_dbg_len (la b : Nat) (stack : List Nat) (al : Bool) :
    (visitedFrames b stack).length ≤ (leafWalkTr la b stack al).2.2.length := by
  induction stack generalizing al with
  | nil => simp [leafWalkTr, visitedFrames]
  | cons f rest ih =>
    by_cases h : (f != b) = true
    · have h1 := ih true
      have h2 := ih false
      have h3 := ih al
      have h4 := ih (if f == la then true else al)
      have h5 := ih (decide (f = la))
      by_cases hal : al <;>
        simp [leafWalkTr, visitedFrames, h, hal] at h1 h2 h3 h4 h5 ⊢ <;> omega
    · by_cases hal : al <;> simp [leafWalkTr, visitedFrames, h, hal]

/-- C10: when `leaf()` runs with an active accumulator and an active root
frame, the capture it appends is the one produced by the transcript walk,
whose transcript shows the callback writing the line `boom!` to stdout once
per visited frame and passing at least one value per visited frame to `dbg!`
(which prints to stderr) — observable I/O beyond appending the RawCapture. -/
theorem leaf_has_io_effects (la b : Nat) (rest stack : List Nat) (ctx : Context)
    (t : Trace) (ht : ctx.trace = some t) (hf : ctx.active_frame = b :: rest) :
    (Trace.leaf la stack ctx).trace
      = some ⟨t.backtraces ++ [(leafWalkTr la b stack false).1]⟩
    ∧ (leafWalkTr la b stack false).2.1
      = (visitedFrames b stack).map (fun _ => "boom!")
    ∧ (visitedFrames b stack).length ≤ (leafWalkTr la b stack false).2.2.length := by
  refine ⟨?_, leafWalkTr_stdout la b stack false, leafWalkTr_dbg_len la b stack false⟩
  simp [Trace.leaf, ht, captureOf, hf, leafWalkTr_fst]

/-- Witness for C10 at a concrete input. -/
theorem leaf_has_io_effects_witness :
    (⟨[9], some ⟨[]⟩⟩ : Context).trace = some ⟨[]⟩
    ∧ (⟨[9], some ⟨[]⟩⟩ : Context).active_frame = 9 :: []
    ∧ ((Trace.leaf 0 [0, 1, 9, 5] ⟨[9], some ⟨[]⟩⟩).trace
        = some ⟨Trace.backtraces ⟨[]⟩ ++ [(leafWalkTr 0 9 [0, 1, 9, 5] false).1]⟩
      ∧ (leafWalkTr 0 9 [0, 1, 9, 5] false).2.1
        = (visitedFrames 9 [0, 1, 9, 5]).map (fun _ => "boom!")
      ∧ (visitedFrames 9 [0, 1, 9, 5]).length
        ≤ (leafWalkTr 0 9 [0, 1, 9, 5] false).2.2.length) :=
  ⟨rfl, rfl, leaf_has_io_effects 0 9 [] [0, 1, 9, 5] ⟨[9], some ⟨[]⟩⟩ ⟨[]⟩ rfl rfl⟩

/-!
## Lemmas about the tree builder
-/

/-- Inserting a path into the empty forest produces its linear chain. -/
theorem insertPath_nil (p : List Nat) : insertPath p [] = mkChain p := by
  induction p with
  | nil => rfl
  | cons a rest ih => simp [insertPath, splitAtAddr, mkChain, ih]

/-- Inserting a second path that shares exactly the prefix `common` with the
chain already present descends through the shared chain and branches at the
first differing address. -/
theorem insertPath_branch (common r1 r2 : List Nat) (x y : Nat) (h : x ≠ y) :
    insertPath (common ++ y :: r2) (mkChain (common ++ x :: r1))
      = chainWith common [TreeNode.mk x (mkChain r1), TreeNode.mk y (mkChain r2)] := by
  induction common with
  | nil =>
    have hxy : (x == y) = false := by simp [h]
    simp [mkChain, insertPath, splitAtAddr, TreeNode.addr, hxy, chainWith,
      insertPath_nil]
  | cons a cs ih =>
    simp [mkChain, insertPath, splitAtAddr, TreeNode.addr, TreeNode.children,
      chainWith, ih]

/-- C4: displaying a `Trace` merges captures by shared address prefixes.
Two RawCaptures (stored leaf-to-root; reversed by the builder to
root-to-leaf) that agree on the root-side segment `common` and then diverge
at addresses `x ≠ y` produce one shared ancestor chain of depth
`common.length` — a single node per level — and branch into exactly two
children at the first differing address, never earlier. -/
theorem display_merges_shared_prefix (common r1 r2 : List Nat) (x y : Nat)
    (h : x ≠ y) :
    Tree.from_trace ⟨[(common ++ x :: r1).reverse, (common ++ y :: r2).reverse]⟩
      = chainWith common [TreeNode.mk x (mkChain r1), TreeNode.mk y (mkChain r2)] := by
  simp only [Tree.from_trace, List.foldl, List.reverse_reverse]
  rw [insertPath_nil]
  exact insertPath_branch common r1 r2 x y h

/-- Witness for C4 at concrete captures sharing the 2-address prefix
`[1, 2]` and branching at `3 ≠ 4`. -/
theorem display_merges_shared_prefix_witness :
    (3 : Nat) ≠ 4
    ∧ Tree.from_trace ⟨[([1, 2] ++ 3 :: []).reverse, ([1, 2] ++ 4 :: [5]).reverse]⟩
      = chainWith [1, 2] [TreeNode.mk 3 (mkChain []), TreeNode.mk 4 (mkChain [5])] :=
  ⟨by decide, display_merges_shared_prefix [1, 2] [] [5] 3 4 (by decide)⟩

/-- Witness for the amended C5 at a concrete stack. -/
theorem leaf_stops_before_boundary_witness :
    (0 : Nat) ∉ [7] ∧ (9 : Nat) ∉ [7] ∧ (9 : Nat) ≠ 0 ∧ (9 : Nat) ∈ [1, 2, 9, 5]
    ∧ ((∀ f ∈ leafWalk 0 9 ([7] ++ 0 :: [1, 2, 9, 5]) false, f ≠ 9)
      ∧ ∃ rest, [1, 2, 9, 5] = leafWalk 0 9 ([7] ++ 0 :: [1, 2, 9, 5]) false ++ 9 :: rest) :=
  ⟨by decide, by decide, by decide, by decide,
    leaf_stops_before_boundary 0 9 [7] [1, 2, 9, 5] (by decide) (by decide) (by decide) (by decide)⟩
